import Mathlib

/-!
Verification of the Secure-Password-Generator core against its specification.

The JavaScript sources are shallowly embedded:
* `src/js/password-generator.js` (class `PasswordGenerator`): character sets,
  `generatePassword`, `ensureAllCharTypes`, `getSecureRandomInt`,
  `calculateStrength`.
* the strength-analysis module (class `PasswordStrengthAnalyzer`):
  `calculateEntropy`, `checkForSequentialChars`, `checkForCommonPatterns`,
  `getStrengthLevel`, `checkSecurityStandards`.

Conventions of the embedding:
* JS strings are `List Char` (all passwords involved are ASCII).
* JS numbers are exact: lengths and indices are `Int`/`Nat`; the float
  expression `Math.ceil(Math.log2(range) / 8)` is embedded by its exact
  real-arithmetic value (the least `b` with `range ≤ 256 ^ b`), and the
  float entropies are real numbers (`Real.logb`).
* `window.crypto.getRandomValues` is modelled by an arbitrary byte stream
  `stream : ℕ → Fin 256` together with a cursor position; the unbounded
  rejection loop of `getSecureRandomInt` gets a fuel parameter, and a
  computation that does not finish (out of fuel, or the JS error paths that
  throw) is `none`.
* `String.prototype.replace` with a single-character pattern replaces the
  first occurrence only; on `List Char` this is `List.erase`.
-/

/-- `this.uppercaseChars` of `PasswordGenerator`. -/
def uppercaseChars : List Char := "ABCDEFGHIJKLMNOPQRSTUVWXYZ".toList

/-- `this.lowercaseChars` of `PasswordGenerator`. -/
def lowercaseChars : List Char := "abcdefghijklmnopqrstuvwxyz".toList

/-- `this.numberChars` of `PasswordGenerator`. -/
def numberChars : List Char := "0123456789".toList

/-- `this.symbolChars` of `PasswordGenerator`. -/
def symbolChars : List Char := "!@#$%^&*()_+-=[]\x7b\x7d|;:,.<>?".toList

/-- `this.similarChars` of `PasswordGenerator`. -/
def similarChars : List Char := "1lI0O".toList

/-- The options object of `PasswordGenerator` (`this.options`).  `length` is
an `Int` because the JS value is an arbitrary number; the `for` loop over
`i < length` runs `length.toNat` times. -/
structure Options where
  length : Int
  uppercase : Bool
  lowercase : Bool
  numbers : Bool
  symbols : Bool
  excludeSimilar : Bool

/-- The loop `for i, charset = charset.replace(similarChars[i], '')`:
`replace` with a one-character string pattern removes the first occurrence,
i.e. `List.erase`. -/
def removeSimilar (l : List Char) : List Char :=
  similarChars.foldl (fun s c => s.erase c) l

/-- The charset assembled from the four include-flags
(`generatePassword`, lines 43-46). -/
def baseCharset (o : Options) : List Char :=
  (if o.uppercase then uppercaseChars else []) ++
  (if o.lowercase then lowercaseChars else []) ++
  (if o.numbers then numberChars else []) ++
  (if o.symbols then symbolChars else [])

/-- The charset actually drawn from by `generatePassword`: the assembled
charset, filtered of similar characters when requested (lines 49-53), with
the fallback `lowercaseChars + numberChars` when empty (lines 56-58). -/
def effectiveCharset (o : Options) : List Char :=
  let cs := if o.excludeSimilar then removeSimilar (baseCharset o) else baseCharset o
  if cs = [] then lowercaseChars ++ numberChars else cs

/-- The union of the enabled character classes with the similar characters
removed (by `List.filter`, i.e. as set subtraction) when `excludeSimilar`
is set; the pre-fallback alphabet of the specification. -/
def preAlphabet (o : Options) : List Char :=
  if o.excludeSimilar then (baseCharset o).filter (fun c => decide (c ∉ similarChars))
  else baseCharset o

/-- The alphabet the specification says the password is drawn from: the
union (in the fixed order) of the character classes whose include-flag is
true, with the similar characters removed when `excludeSimilar` is set, or
the fallback alphabet when no class contributes.  Stated with `List.filter`
(set subtraction); `effectiveCharset_eq` shows it agrees with the code's
first-occurrence-removal construction. -/
def impliedAlphabet (o : Options) : List Char :=
  if preAlphabet o = [] then lowercaseChars ++ numberChars else preAlphabet o

/-- `range = max - min + 1` of `getSecureRandomInt`, as a natural number
(`0` when `min > max`, matching the degenerate JS path that produces no
result). -/
def randRange (lo hi : Int) : Nat := (hi - lo + 1).toNat

/-- Bounded search for the least `b` with `R ≤ 256 ^ b`: the exact value of
`Math.ceil(Math.log2(range) / 8)` for `range ≥ 1`. -/
def bytesGo (R : Nat) : Nat → Nat → Nat
  | 0, b => b
  | fuel + 1, b => if R ≤ 256 ^ b then b else bytesGo R fuel (b + 1)

/-- `bytesNeeded = Math.ceil(Math.log2(range) / 8)` in exact arithmetic:
the least `b` with `range ≤ 256 ^ b` (see `bytesNeeded_spec`). -/
def bytesNeeded (R : Nat) : Nat := bytesGo R R 0

/-- The loop `for i, value = value * 256 + array[i]` reading `b` bytes of
the stream starting at `pos`, big-endian. -/
def readValue (stream : Nat → Fin 256) (pos b : Nat) : Nat :=
  (List.range b).foldl (fun v i => v * 256 + (stream (pos + i)).val) 0

/-- The big-endian value of a byte vector, the mathematical counterpart of
`readValue` (see `readValue_eq_toValue`). -/
def toValue : (b : Nat) → (Fin b → Fin 256) → Nat
  | 0, _ => 0
  | b + 1, a => (a 0).val * 256 ^ b + toValue b (fun i => a i.succ)

/-- `getSecureRandomInt(min, max)`: draw `bytesNeeded` bytes, interpret
big-endian, reject and redraw when `value ≥ maxValue - maxValue % range`,
otherwise return `min + value % range`.  The recursion of the source gets a
fuel parameter; the result carries the new stream position. -/
def getSecureRandomIntAux (lo hi : Int) (stream : Nat → Fin 256) :
    Nat → Nat → Option (Int × Nat)
  | _, 0 => none
  | pos, fuel + 1 =>
    let R := randRange lo hi
    let b := bytesNeeded R
    let M := 256 ^ b
    let v := readValue stream pos b
    if M - M % R ≤ v then getSecureRandomIntAux lo hi stream (pos + b) fuel
    else some (lo + ((v % R : Nat) : Int), pos + b)

/-- The first loop of `generatePassword` (lines 61-64): draw `n` random
indices into `cs` and append the characters to `acc`. -/
def generateLoop (cs : List Char) (stream : Nat → Fin 256) (fuel : Nat) :
    Nat → List Char → Nat → Option (List Char × Nat)
  | 0, acc, pos => some (acc, pos)
  | n + 1, acc, pos =>
    match getSecureRandomIntAux 0 ((cs.length : Int) - 1) stream pos fuel with
    | none => none
    | some (idx, pos') => generateLoop cs stream fuel n (acc ++ [cs.getD idx.toNat ' ']) pos'

/-- `requiredSets` of `ensureAllCharTypes` (lines 80-85). -/
def requiredSets (o : Options) : List (List Char) :=
  (if o.uppercase then [uppercaseChars] else []) ++
  (if o.lowercase then [lowercaseChars] else []) ++
  (if o.numbers then [numberChars] else []) ++
  (if o.symbols then [symbolChars] else [])

/-- `validChars` of one iteration of `ensureAllCharTypes` (lines 106-113):
the class with similar characters removed when requested. -/
def validCharsOf (o : Options) (charSet : List Char) : List Char :=
  if o.excludeSimilar then removeSimilar charSet else charSet

/-- One iteration of the `for (const charSet of requiredSets)` loop of
`ensureAllCharTypes` (lines 88-126), acting on the pair
(current password, stream position). -/
def ensureStep (o : Options) (stream : Nat → Fin 256) (fuel : Nat) :
    List Char × Nat → List Char → Option (List Char × Nat)
  | (pw, pos), charSet =>
    if o.excludeSimilar ∧ charSet.all (fun c => decide (c ∈ similarChars)) then
      some (pw, pos)
    else if pw.any (fun c => decide (c ∈ charSet)) then
      some (pw, pos)
    else if charSet.length = 0 then
      some (pw, pos)
    else if (validCharsOf o charSet).length = 0 then
      some (pw, pos)
    else
      match getSecureRandomIntAux 0 (((validCharsOf o charSet).length : Int) - 1)
          stream pos fuel with
      | none => none
      | some (ci, pos1) =>
        match getSecureRandomIntAux 0 ((pw.length : Int) - 1) stream pos1 fuel with
        | none => none
        | some (pi, pos2) =>
          some (pw.take pi.toNat ++ [(validCharsOf o charSet).getD ci.toNat ' '] ++
                  pw.drop (pi.toNat + 1),
                pos2)

/-- The loop of `ensureAllCharTypes` over a list of required sets. -/
def ensureFold (o : Options) (stream : Nat → Fin 256) (fuel : Nat) :
    List (List Char) → List Char × Nat → Option (List Char × Nat)
  | [], st => some st
  | S :: rest, st =>
    match ensureStep o stream fuel st S with
    | none => none
    | some st' => ensureFold o stream fuel rest st'

/-- `ensureAllCharTypes(password, charset)` (the `charset` argument is
unused by the source body except through `this.options`). -/
def ensureAllCharTypes (o : Options) (stream : Nat → Fin 256) (fuel : Nat)
    (pw : List Char) (pos : Nat) : Option (List Char × Nat) :=
  ensureFold o stream fuel (requiredSets o) (pw, pos)

/-- `generatePassword()`: build the charset, draw `length` characters,
then run the inclusion-guarantee pass. -/
def generatePassword (o : Options) (stream : Nat → Fin 256) (fuel : Nat) :
    Option (List Char) :=
  match generateLoop (effectiveCharset o) stream fuel o.length.toNat [] 0 with
  | none => none
  | some (pw, pos) =>
    match ensureAllCharTypes o stream fuel pw pos with
    | none => none
    | some (pw2, _) => some pw2

/-! ### Properties of the rejection sampler -/

theorem bytesGo_correct (R : Nat) : ∀ fuel b, R ≤ 256 ^ (b + fuel) →
    R ≤ 256 ^ bytesGo R fuel b ∧ b ≤ bytesGo R fuel b ∧
      ∀ j, b ≤ j → j < bytesGo R fuel b → 256 ^ j < R := by
  intro fuel
  induction fuel with
  | zero => intro b h; exact ⟨h, le_refl b, fun j h1 h2 => absurd (lt_of_le_of_lt h1 h2) (lt_irrefl b)⟩
  | succ fuel ih =>
    intro b h
    by_cases hb : R ≤ 256 ^ b
    · refine ⟨by simp [bytesGo, hb], by simp [bytesGo, hb], ?_⟩
      simp only [bytesGo, if_pos hb]
      exact fun j h1 h2 => absurd (lt_of_le_of_lt h1 h2) (lt_irrefl b)
    · have h' : R ≤ 256 ^ (b + 1 + fuel) := by
        have : b + 1 + fuel = b + (fuel + 1) := by omega
        rw [this]; exact h
      obtain ⟨h1, h2, h3⟩ := ih (b + 1) h'
      refine ⟨by simpa [bytesGo, hb] using h1, ?_, ?_⟩
      · simp only [bytesGo, if_neg hb]; omega
      · simp only [bytesGo, if_neg hb]
        intro j hj1 hj2
        rcases Nat.eq_or_lt_of_le hj1 with rfl | hj
        · exact Nat.lt_of_not_le hb
        · exact h3 j hj hj2

/-- `bytesNeeded R` is the least byte count covering the range:
`R ≤ 256 ^ k` exactly when `bytesNeeded R ≤ k`. -/
theorem bytesNeeded_spec (R : Nat) : ∀ k, R ≤ 256 ^ k ↔ bytesNeeded R ≤ k := by
  have hfuel : R ≤ 256 ^ (0 + R) := by
    rw [Nat.zero_add]
    exact le_of_lt (Nat.lt_pow_self (by norm_num) R)
  obtain ⟨h1, _, h3⟩ := bytesGo_correct R R 0 hfuel
  intro k
  constructor
  · intro hk
    by_contra hlt
    exact absurd hk (Nat.not_le.mpr (h3 k (Nat.zero_le k) (Nat.lt_of_not_le hlt)))
  · intro hk
    exact le_trans h1 (Nat.pow_le_pow_right (by norm_num) hk)

theorem le_pow_bytesNeeded (R : Nat) : R ≤ 256 ^ bytesNeeded R :=
  (bytesNeeded_spec R (bytesNeeded R)).mpr (le_refl _)

/-- Any successful draw lies in `[lo, lo + range)`. -/
theorem getSecureRandomIntAux_range (lo hi : Int) (stream : Nat → Fin 256) :
    ∀ fuel pos r pos', getSecureRandomIntAux lo hi stream pos fuel = some (r, pos') →
      lo ≤ r ∧ r < lo + (randRange lo hi : Int) := by
  intro fuel
  induction fuel with
  | zero => intro pos r pos' h; simp [getSecureRandomIntAux] at h
  | succ fuel ih =>
    intro pos r pos' h
    simp only [getSecureRandomIntAux] at h
    split at h
    · exact ih _ _ _ h
    · rename_i hrej
      have hR : randRange lo hi ≠ 0 := by
        intro h0
        apply hrej
        simp [h0]
      have hmod : readValue stream pos (bytesNeeded (randRange lo hi)) % randRange lo hi
          < randRange lo hi := Nat.mod_lt _ (Nat.pos_of_ne_zero hR)
      cases h
      constructor
      · omega
      · omega

/-- In `generatePassword` all draws have `lo = 0` and `hi = n - 1`; the
range is then exactly `n` and results are indices below `n`. -/
theorem randRange_zero_sub_one (n : Nat) : randRange 0 ((n : Int) - 1) = n := by
  unfold randRange; omega

theorem getSecureRandomIntAux_index (n : Nat) (stream : Nat → Fin 256)
    (fuel pos : Nat) (r : Int) (pos' : Nat)
    (h : getSecureRandomIntAux 0 ((n : Int) - 1) stream pos fuel = some (r, pos')) :
    0 ≤ r ∧ r.toNat < n := by
  have := getSecureRandomIntAux_range 0 ((n : Int) - 1) stream fuel pos r pos' h
  rw [randRange_zero_sub_one] at this
  omega

/-! ### Big-endian byte vectors -/

theorem foldl_val_shift (f : Nat → Nat) :
    ∀ (l : List Nat) (c : Nat),
      l.foldl (fun v i => v * 256 + f i) c =
        c * 256 ^ l.length + l.foldl (fun v i => v * 256 + f i) 0 := by
  intro l
  induction l with
  | nil => intro c; simp
  | cons a l ih =>
    intro c
    simp only [List.foldl_cons, List.length_cons]
    rw [ih (c * 256 + f a), ih (0 * 256 + f a)]
    ring

theorem readValue_succ (stream : Nat → Fin 256) (pos b : Nat) :
    readValue stream pos (b + 1) =
      (stream pos).val * 256 ^ b + readValue stream (pos + 1) b := by
  unfold readValue
  rw [List.range_succ_eq_map]
  simp only [List.foldl_cons, List.foldl_map, Nat.zero_mul, Nat.zero_add, Nat.add_zero]
  have hfun : (fun (v i : Nat) => v * 256 + (stream (pos + Nat.succ i)).val) =
      fun (v i : Nat) => v * 256 + (stream (pos + 1 + i)).val := by
    funext v i
    have : pos + Nat.succ i = pos + 1 + i := by omega
    rw [this]
  rw [hfun, foldl_val_shift (fun i => (stream (pos + 1 + i)).val), List.length_range]

theorem toValue_cons (b : Nat) (x : Fin 256) (f : Fin b → Fin 256) :
    toValue (b + 1) (Fin.cons x f) = x.val * 256 ^ b + toValue b f := by
  simp only [toValue, Fin.cons_zero, Fin.cons_succ]

theorem readValue_eq_toValue (stream : Nat → Fin 256) :
    ∀ b pos, readValue stream pos b = toValue b (fun i => stream (pos + i.val)) := by
  intro b
  induction b with
  | zero => intro pos; rfl
  | succ b ih =>
    intro pos
    rw [readValue_succ, ih (pos + 1)]
    simp only [toValue, Fin.val_zero, Nat.add_zero, Fin.val_succ]
    congr 1
    congr 1
    funext i
    congr 1
    omega

theorem toValue_lt : ∀ b (a : Fin b → Fin 256), toValue b a < 256 ^ b := by
  intro b
  induction b with
  | zero => intro a; simp [toValue]
  | succ b ih =>
    intro a
    have h1 : (a 0).val ≤ 255 := Nat.lt_succ_iff.mp (a 0).isLt
    have h2 : toValue b (fun i => a i.succ) < 256 ^ b := ih _
    calc (a 0).val * 256 ^ b + toValue b (fun i => a i.succ)
        < (a 0).val * 256 ^ b + 256 ^ b := by omega
      _ = ((a 0).val + 1) * 256 ^ b := by ring
      _ ≤ 256 * 256 ^ b := Nat.mul_le_mul_right _ (by omega)
      _ = 256 ^ (b + 1) := by ring

/-- Decode a natural number into a big-endian byte vector (the inverse of
`toValue` below `256 ^ b`). -/
def fromValue : (b : Nat) → Nat → Fin b → Fin 256
  | 0, _ => fun i => i.elim0
  | b + 1, v =>
    Fin.cons ⟨v / 256 ^ b % 256, Nat.mod_lt _ (by norm_num)⟩ (fromValue b (v % 256 ^ b))

theorem mod_pow_succ_digit (v b : Nat) :
    v % 256 ^ (b + 1) = 256 ^ b * (v / 256 ^ b % 256) + v % 256 ^ b := by
  have hdiv : v % (256 ^ b * 256) / 256 ^ b = v / 256 ^ b % 256 :=
    Nat.mod_mul_right_div_self v (256 ^ b) 256
  have hmod : v % (256 ^ b * 256) % 256 ^ b = v % 256 ^ b :=
    Nat.mod_mod_of_dvd v (Dvd.intro 256 rfl)
  have hsum := Nat.div_add_mod (v % (256 ^ b * 256)) (256 ^ b)
  rw [hdiv, hmod] at hsum
  rw [pow_succ]
  omega

theorem toValue_fromValue : ∀ b v, toValue b (fromValue b v) = v % 256 ^ b := by
  intro b
  induction b with
  | zero => intro v; simp [toValue, Nat.mod_one]
  | succ b ih =>
    intro v
    show toValue (b + 1) (Fin.cons _ (fromValue b (v % 256 ^ b))) = _
    rw [toValue_cons, ih (v % 256 ^ b), Nat.mod_mod_of_dvd _ dvd_rfl,
      mod_pow_succ_digit v b]
    ring

theorem fromValue_toValue : ∀ b (a : Fin b → Fin 256), fromValue b (toValue b a) = a := by
  intro b
  induction b with
  | zero => intro a; funext i; exact i.elim0
  | succ b ih =>
    intro a
    have hT : toValue b (fun i => a i.succ) < 256 ^ b := toValue_lt b _
    have hval : toValue (b + 1) a =
        (a 0).val * 256 ^ b + toValue b (fun i => a i.succ) := rfl
    show Fin.cons _ (fromValue b (toValue (b + 1) a % 256 ^ b)) = a
    have hmod : toValue (b + 1) a % 256 ^ b = toValue b (fun i => a i.succ) := by
      rw [hval, Nat.mul_comm, Nat.mul_add_mod, Nat.mod_eq_of_lt hT]
    have hdig : toValue (b + 1) a / 256 ^ b % 256 = (a 0).val := by
      rw [hval, Nat.mul_comm]
      rw [Nat.mul_add_div (by positivity), Nat.div_eq_of_lt hT, Nat.add_zero,
        Nat.mod_eq_of_lt (a 0).isLt]
    rw [hmod, ih]
    have : (⟨toValue (b + 1) a / 256 ^ b % 256, Nat.mod_lt _ (by norm_num)⟩ : Fin 256) = a 0 :=
      Fin.ext hdig
    rw [this]
    exact Fin.cons_self_tail a

/-- Counting byte vectors by their value: for any predicate, the byte
vectors whose value satisfies it are exactly as many as the values below
`256 ^ b` satisfying it. -/
theorem card_toValue_filter (b : Nat) (P : Nat → Prop) [DecidablePred P] :
    ((Finset.univ : Finset (Fin b → Fin 256)).filter (fun a => P (toValue b a))).card
      = ((Finset.range (256 ^ b)).filter P).card := by
  apply Finset.card_nbij' (fun a => toValue b a) (fun v => fromValue b v)
  · intro a ha
    rw [Finset.mem_filter] at ha ⊢
    exact ⟨Finset.mem_range.mpr (toValue_lt b a), ha.2⟩
  · intro v hv
    rw [Finset.mem_filter] at hv ⊢
    refine ⟨Finset.mem_univ _, ?_⟩
    rw [toValue_fromValue, Nat.mod_eq_of_lt (Finset.mem_range.mp hv.1)]
    exact hv.2
  · intro a _
    exact fromValue_toValue b a
  · intro v hv
    rw [Finset.mem_filter, Finset.mem_range] at hv
    rw [toValue_fromValue, Nat.mod_eq_of_lt hv.1]

theorem card_range_mul_filter_mod (R t : Nat) (ht : t < R) :
    ∀ Q, ((Finset.range (Q * R)).filter (fun v => v % R = t)).card = Q := by
  intro Q
  induction Q with
  | zero => simp
  | succ Q ih =>
    have hsplit : (Q + 1) * R = Q * R + R := by ring
    rw [hsplit, Finset.range_add, Finset.filter_union, Finset.card_union_of_disjoint]
    · rw [ih, Finset.filter_map, Finset.card_map]
      have hone : (Finset.range R).filter
          ((fun v => v % R = t) ∘ (addLeftEmbedding (Q * R))) = {t} := by
        ext k
        simp only [Finset.mem_filter, Finset.mem_range, Finset.mem_singleton,
          Function.comp_apply, addLeftEmbedding_apply]
        constructor
        · rintro ⟨hk, hmod⟩
          rw [Nat.mul_comm, Nat.mul_add_mod, Nat.mod_eq_of_lt hk] at hmod
          exact hmod
        · rintro rfl
          refine ⟨ht, ?_⟩
          rw [Nat.mul_comm, Nat.mul_add_mod, Nat.mod_eq_of_lt ht]
      rw [hone, Finset.card_singleton]
    · apply Finset.disjoint_filter_filter
      rw [Finset.disjoint_left]
      intro k hk hk2
      rw [Finset.mem_range] at hk
      rw [Finset.mem_map] at hk2
      obtain ⟨m, -, hm⟩ := hk2
      rw [addLeftEmbedding_apply] at hm
      omega

theorem filter_range_restrict (M N : Nat) (h : N ≤ M) (P : Nat → Prop) [DecidablePred P] :
    ((Finset.range M).filter (fun v => v < N ∧ P v)) = (Finset.range N).filter P := by
  ext k
  simp only [Finset.mem_filter, Finset.mem_range]
  exact ⟨fun ⟨_, hn, hp⟩ => ⟨hn, hp⟩, fun ⟨hn, hp⟩ => ⟨lt_of_lt_of_le hn h, hn, hp⟩⟩

/-- The full specification of `getSecureRandomInt(lo, hi)` claimed by the
spec: results lie in `[lo, hi]`; the byte count is the smallest covering
the range; a drawn big-endian value is rejected exactly when it is at least
`⌊256 ^ bytes / range⌋ * range`; the drawn value is the big-endian value of
the drawn byte vector; and every result is hit by exactly
`⌊256 ^ bytes / range⌋` accepted byte vectors. -/
def randIntSpec (lo hi : Int) : Prop :=
  (∀ stream pos fuel r pos',
    getSecureRandomIntAux lo hi stream pos fuel = some (r, pos') → lo ≤ r ∧ r ≤ hi) ∧
  (∀ k, randRange lo hi ≤ 256 ^ k ↔ bytesNeeded (randRange lo hi) ≤ k) ∧
  (∀ stream pos fuel,
    getSecureRandomIntAux lo hi stream pos (fuel + 1) =
      if 256 ^ bytesNeeded (randRange lo hi) / randRange lo hi * randRange lo hi ≤
          readValue stream pos (bytesNeeded (randRange lo hi))
      then getSecureRandomIntAux lo hi stream (pos + bytesNeeded (randRange lo hi)) fuel
      else some (lo + ((readValue stream pos (bytesNeeded (randRange lo hi)) %
                        randRange lo hi : Nat) : Int),
                 pos + bytesNeeded (randRange lo hi))) ∧
  (∀ stream pos, readValue stream pos (bytesNeeded (randRange lo hi)) =
    toValue (bytesNeeded (randRange lo hi)) (fun i => stream (pos + i.val))) ∧
  (∀ r : Int, lo ≤ r → r ≤ hi →
    ((Finset.univ : Finset (Fin (bytesNeeded (randRange lo hi)) → Fin 256)).filter
      (fun a =>
        toValue (bytesNeeded (randRange lo hi)) a <
            256 ^ bytesNeeded (randRange lo hi) / randRange lo hi * randRange lo hi ∧
          lo + ((toValue (bytesNeeded (randRange lo hi)) a % randRange lo hi : Nat) : Int)
            = r)).card
      = 256 ^ bytesNeeded (randRange lo hi) / randRange lo hi)

/-- C3: for every `min ≤ max`, `getSecureRandomInt` returns an integer in
`[min, max]`; the byte count is the smallest covering `range = max-min+1`;
a drawn big-endian value is rejected exactly when
`value ≥ ⌊256 ^ bytes / range⌋ * range`; and among accepted draws exactly
the same number (`⌊256 ^ bytes / range⌋`) of byte vectors map to each
result `min + value % range` — the sampler is uniform. -/
theorem getSecureRandomInt_uniform (lo hi : Int) (h : lo ≤ hi) : randIntSpec lo hi := by
  have hR : 0 < randRange lo hi := by unfold randRange; omega
  have hsub : ∀ M : Nat, M - M % randRange lo hi =
      M / randRange lo hi * randRange lo hi := by
    intro M
    have := Nat.div_add_mod M (randRange lo hi)
    have h2 : randRange lo hi * (M / randRange lo hi) =
        M / randRange lo hi * randRange lo hi := Nat.mul_comm _ _
    omega
  refine ⟨?_, bytesNeeded_spec _, ?_, ?_, ?_⟩
  · intro stream pos fuel r pos' hs
    have := getSecureRandomIntAux_range lo hi stream fuel pos r pos' hs
    unfold randRange at this
    omega
  · intro stream pos fuel
    show (if _ ≤ _ then _ else _) = _
    rw [hsub (256 ^ bytesNeeded (randRange lo hi))]
  · intro stream pos
    exact readValue_eq_toValue stream (bytesNeeded (randRange lo hi)) pos
  · intro r hlo hhi
    have ht : (r - lo).toNat < randRange lo hi := by unfold randRange; omega
    rw [card_toValue_filter (bytesNeeded (randRange lo hi))
      (fun v => v < 256 ^ bytesNeeded (randRange lo hi) / randRange lo hi * randRange lo hi ∧
        lo + ((v % randRange lo hi : Nat) : Int) = r)]
    rw [filter_range_restrict _ _ (Nat.div_mul_le_self _ _)]
    have hcong : (Finset.range
        (256 ^ bytesNeeded (randRange lo hi) / randRange lo hi * randRange lo hi)).filter
          (fun v => lo + ((v % randRange lo hi : Nat) : Int) = r) =
        (Finset.range
        (256 ^ bytesNeeded (randRange lo hi) / randRange lo hi * randRange lo hi)).filter
          (fun v => v % randRange lo hi = (r - lo).toNat) := by
      apply Finset.filter_congr
      intro v _
      constructor
      · intro hv
        omega
      · intro hv
        omega
    rw [hcong, card_range_mul_filter_mod _ _ ht]

/-- Concrete instance of C3 at `min = 0`, `max = 9`. -/
theorem getSecureRandomInt_uniform_witness : (0 : Int) ≤ 9 ∧ randIntSpec 0 9 :=
  ⟨by norm_num, getSecureRandomInt_uniform 0 9 (by norm_num)⟩


/-! ### Charset lemmas -/

/-- On the sixteen possible assembled charsets, removing each similar
character's first occurrence coincides with filtering all of them out
(each similar character occurs at most once, the classes being disjoint
and duplicate-free). -/
theorem removeSimilar_base_eq (u l n s : Bool) :
    removeSimilar ((if u then uppercaseChars else []) ++ (if l then lowercaseChars else []) ++
        (if n then numberChars else []) ++ (if s then symbolChars else [])) =
      ((if u then uppercaseChars else []) ++ (if l then lowercaseChars else []) ++
        (if n then numberChars else []) ++ (if s then symbolChars else [])).filter
          (fun c => decide (c ∉ similarChars)) := by
  cases u <;> cases l <;> cases n <;> cases s <;> decide

theorem removeSimilar_eq_filter (o : Options) :
    removeSimilar (baseCharset o) =
      (baseCharset o).filter (fun c => decide (c ∉ similarChars)) := by
  obtain ⟨len, u, l, n, s, ex⟩ := o
  exact removeSimilar_base_eq u l n s

theorem effectiveCharset_eq (o : Options) : effectiveCharset o = impliedAlphabet o := by
  have hpre : (if o.excludeSimilar then removeSimilar (baseCharset o) else baseCharset o) =
      preAlphabet o := by
    unfold preAlphabet
    by_cases hex : o.excludeSimilar = true
    · rw [if_pos hex, if_pos hex, removeSimilar_eq_filter]
    · rw [if_neg hex, if_neg hex]
  show (if (if o.excludeSimilar then removeSimilar (baseCharset o) else baseCharset o) = []
      then lowercaseChars ++ numberChars
      else (if o.excludeSimilar then removeSimilar (baseCharset o) else baseCharset o)) =
    impliedAlphabet o
  rw [hpre]
  rfl

theorem mem_requiredSets (o : Options) (S : List Char) :
    S ∈ requiredSets o ↔
      (o.uppercase = true ∧ S = uppercaseChars) ∨
      (o.lowercase = true ∧ S = lowercaseChars) ∨
      (o.numbers = true ∧ S = numberChars) ∨
      (o.symbols = true ∧ S = symbolChars) := by
  unfold requiredSets
  obtain ⟨len, u, l, n, s, ex⟩ := o
  cases u <;> cases l <;> cases n <;> cases s <;> simp [or_assoc]

theorem filtered_class_nonempty :
    (uppercaseChars.filter (fun c => decide (c ∉ similarChars)) ≠ [] ∧
     removeSimilar uppercaseChars = uppercaseChars.filter (fun c => decide (c ∉ similarChars))) ∧
    (lowercaseChars.filter (fun c => decide (c ∉ similarChars)) ≠ [] ∧
     removeSimilar lowercaseChars = lowercaseChars.filter (fun c => decide (c ∉ similarChars))) ∧
    (numberChars.filter (fun c => decide (c ∉ similarChars)) ≠ [] ∧
     removeSimilar numberChars = numberChars.filter (fun c => decide (c ∉ similarChars))) ∧
    (symbolChars.filter (fun c => decide (c ∉ similarChars)) ≠ [] ∧
     removeSimilar symbolChars = symbolChars.filter (fun c => decide (c ∉ similarChars))) := by
  decide

/-- Each class listed in `requiredSets` is a sub-collection of the assembled
base charset. -/
theorem requiredSets_subset_base (o : Options) (S : List Char) (hS : S ∈ requiredSets o) :
    ∀ c ∈ S, c ∈ baseCharset o := by
  intro c hc
  rcases (mem_requiredSets o S).mp hS with ⟨hf, rfl⟩ | ⟨hf, rfl⟩ | ⟨hf, rfl⟩ | ⟨hf, rfl⟩ <;>
    simp [baseCharset, hf] <;> tauto

theorem mem_impliedAlphabet_of (o : Options) (c : Char) (hc : c ∈ preAlphabet o) :
    c ∈ impliedAlphabet o := by
  unfold impliedAlphabet
  rw [if_neg (List.ne_nil_of_mem hc)]
  exact hc

/-- For a class of `requiredSets`, its `removeSimilar` agrees with
filtering. -/
theorem removeSimilar_class_eq (o : Options) (S : List Char) (hS : S ∈ requiredSets o) :
    removeSimilar S = S.filter (fun c => decide (c ∉ similarChars)) := by
  rcases (mem_requiredSets o S).mp hS with ⟨-, rfl⟩ | ⟨-, rfl⟩ | ⟨-, rfl⟩ | ⟨-, rfl⟩
  · exact filtered_class_nonempty.1.2
  · exact filtered_class_nonempty.2.1.2
  · exact filtered_class_nonempty.2.2.1.2
  · exact filtered_class_nonempty.2.2.2.2

/-- The exclusion-filtered subset of a required class is contained in the
implied alphabet. -/
theorem validChars_subset_implied (o : Options) (S : List Char) (hS : S ∈ requiredSets o) :
    ∀ c ∈ validCharsOf o S, c ∈ impliedAlphabet o := by
  have hbase := requiredSets_subset_base o S hS
  intro c hc
  apply mem_impliedAlphabet_of
  unfold validCharsOf at hc
  unfold preAlphabet
  by_cases hex : o.excludeSimilar = true
  · rw [if_pos hex] at hc ⊢
    rw [removeSimilar_class_eq o S hS, List.mem_filter] at hc
    exact List.mem_filter.mpr ⟨hbase c hc.1, hc.2⟩
  · rw [if_neg hex] at hc ⊢
    exact hbase c hc

/-- The exclusion-filtered subset of a required class stays inside the
class. -/
theorem validChars_subset_class (o : Options) (S : List Char) (hS : S ∈ requiredSets o) :
    ∀ c ∈ validCharsOf o S, c ∈ S := by
  intro c hc
  unfold validCharsOf at hc
  by_cases hex : o.excludeSimilar = true
  · rw [if_pos hex, removeSimilar_class_eq o S hS, List.mem_filter] at hc
    exact hc.1
  · rw [if_neg hex] at hc
    exact hc

/-! ### The drawing loop and the inclusion-guarantee pass -/

theorem generateLoop_some (cs : List Char) (stream : Nat → Fin 256) (fuel : Nat) :
    ∀ n acc pos pw pos', generateLoop cs stream fuel n acc pos = some (pw, pos') →
      pw.length = acc.length + n ∧ ∀ c ∈ pw, c ∈ acc ∨ c ∈ cs := by
  intro n
  induction n with
  | zero =>
    intro acc pos pw pos' h
    rw [generateLoop, Option.some.injEq, Prod.mk.injEq] at h
    obtain ⟨rfl, -⟩ := h
    exact ⟨rfl, fun c hc => Or.inl hc⟩
  | succ n ih =>
    intro acc pos pw pos' h
    rw [generateLoop] at h
    split at h
    · exact absurd h (by simp)
    · rename_i idx pos1 hdraw
      obtain ⟨hlen, hmem⟩ := ih _ _ _ _ h
      have hidx := getSecureRandomIntAux_index cs.length stream fuel pos idx pos1 hdraw
      constructor
      · rw [hlen, List.length_append, List.length_singleton]
        omega
      · intro c hc
        rcases hmem c hc with hacc | hcs
        · rcases List.mem_append.mp hacc with h1 | h2
          · exact Or.inl h1
          · right
            rw [List.mem_singleton] at h2
            subst h2
            rw [List.getD_eq_getElem cs ' ' hidx.2]
            exact List.getElem_mem _
        · exact Or.inr hcs

theorem ensureStep_some (o : Options) (stream : Nat → Fin 256) (fuel : Nat)
    (pw : List Char) (pos : Nat) (S : List Char) (hS : S ∈ requiredSets o)
    (st' : List Char × Nat) (h : ensureStep o stream fuel (pw, pos) S = some st') :
    st'.1.length = pw.length ∧ ∀ c ∈ st'.1, c ∈ pw ∨ c ∈ impliedAlphabet o := by
  rw [ensureStep] at h
  by_cases h1 : o.excludeSimilar = true ∧
      (S.all fun c => decide (c ∈ similarChars)) = true
  · rw [if_pos h1] at h
    cases h
    exact ⟨rfl, fun c hc => Or.inl hc⟩
  rw [if_neg h1] at h
  by_cases h2 : (pw.any fun c => decide (c ∈ S)) = true
  · rw [if_pos h2] at h
    cases h
    exact ⟨rfl, fun c hc => Or.inl hc⟩
  rw [if_neg h2] at h
  by_cases h3 : S.length = 0
  · rw [if_pos h3] at h
    cases h
    exact ⟨rfl, fun c hc => Or.inl hc⟩
  rw [if_neg h3] at h
  by_cases h4 : (validCharsOf o S).length = 0
  · rw [if_pos h4] at h
    cases h
    exact ⟨rfl, fun c hc => Or.inl hc⟩
  rw [if_neg h4] at h
  split at h
  · exact absurd h (by simp)
  · rename_i ci pos1 hdraw1
    split at h
    · exact absurd h (by simp)
    · rename_i pi pos2 hdraw2
      cases h
      have hci := getSecureRandomIntAux_index (validCharsOf o S).length stream fuel pos ci
        pos1 hdraw1
      have hpi := getSecureRandomIntAux_index pw.length stream fuel pos1 pi pos2 hdraw2
      constructor
      · simp only [List.length_append, List.length_take, List.length_drop,
          List.length_singleton]
        omega
      · intro c hc
        rw [List.append_assoc, List.mem_append, List.mem_append] at hc
        rcases hc with hc1 | hc2 | hc3
        · exact Or.inl (List.mem_of_mem_take hc1)
        · rw [List.mem_singleton] at hc2
          subst hc2
          right
          apply validChars_subset_implied o S hS
          rw [List.getD_eq_getElem _ ' ' hci.2]
          exact List.getElem_mem _
        · exact Or.inl (List.mem_of_mem_drop hc3)

theorem ensureFold_some (o : Options) (stream : Nat → Fin 256) (fuel : Nat) :
    ∀ sets pw pos st', (∀ S ∈ sets, S ∈ requiredSets o) →
      ensureFold o stream fuel sets (pw, pos) = some st' →
      st'.1.length = pw.length ∧ ∀ c ∈ st'.1, c ∈ pw ∨ c ∈ impliedAlphabet o := by
  intro sets
  induction sets with
  | nil =>
    intro pw pos st' _ h
    rw [ensureFold] at h
    cases h
    exact ⟨rfl, fun c hc => Or.inl hc⟩
  | cons S rest ih =>
    intro pw pos st' hmem h
    rw [ensureFold] at h
    split at h
    · exact absurd h (by simp)
    · rename_i st1 hstep
      obtain ⟨pw1, pos1⟩ := st1
      obtain ⟨hl1, hm1⟩ := ensureStep_some o stream fuel pw pos S
        (hmem S (List.mem_cons_self S rest)) (pw1, pos1) hstep
      obtain ⟨hl2, hm2⟩ := ih pw1 pos1 st' (fun T hT => hmem T (List.mem_cons_of_mem S hT)) h
      refine ⟨hl2.trans hl1, fun c hc => ?_⟩
      rcases hm2 c hc with hc1 | hc2
      · exact hm1 c hc1
      · exact Or.inr hc2


/-! ### C1: length and alphabet of the generated password -/

/-- C1: for every valid configuration (length 8-64, any flag combination),
a successful `generatePassword` run returns a string of exactly
`config.length` characters, all of which belong to the alphabet implied by
the configuration (union of enabled classes, minus similar characters when
excluded, or the fallback alphabet). -/
theorem generate_length_and_alphabet (o : Options) (stream : Nat → Fin 256) (fuel : Nat)
    (p : List Char) (h8 : 8 ≤ o.length) (h64 : o.length ≤ 64)
    (h : generatePassword o stream fuel = some p) :
    (p.length : Int) = o.length ∧ ∀ c ∈ p, c ∈ impliedAlphabet o := by
  unfold generatePassword at h
  split at h
  · exact absurd h (by simp)
  · rename_i pw pos hloop
    split at h
    · exact absurd h (by simp)
    · rename_i pw2 pos2 hens
      cases h
      obtain ⟨hl1, hm1⟩ :=
        generateLoop_some (effectiveCharset o) stream fuel o.length.toNat [] 0 pw pos hloop
      unfold ensureAllCharTypes at hens
      obtain ⟨hl2, hm2⟩ :=
        ensureFold_some o stream fuel (requiredSets o) pw pos (p, pos2)
          (fun S hS => hS) hens
      constructor
      · have hlen : p.length = pw.length := hl2
        have hlen' : pw.length = o.length.toNat := by simpa using hl1
        omega
      · intro c hc
        rcases hm2 c hc with h1 | h2
        · rcases hm1 c h1 with h0 | hcs
          · exact absurd h0 (List.not_mem_nil c)
          · rw [← effectiveCharset_eq]
            exact hcs
        · exact h2

/-- Concrete instance of C1: the all-classes, length-16 configuration with
the all-zero byte stream. -/
theorem generate_length_and_alphabet_witness :
    (8 : Int) ≤ 16 ∧ (16 : Int) ≤ 64 ∧
    generatePassword ⟨16, true, true, true, true, false⟩ (fun _ => (0 : Fin 256)) 20 =
      some ("!AAAAAAAAAAAAAAA".toList) ∧
    (("!AAAAAAAAAAAAAAA".toList.length : Int) =
        (⟨16, true, true, true, true, false⟩ : Options).length ∧
      ∀ c ∈ "!AAAAAAAAAAAAAAA".toList,
        c ∈ impliedAlphabet ⟨16, true, true, true, true, false⟩) :=
  ⟨by norm_num, by norm_num, by decide,
    generate_length_and_alphabet ⟨16, true, true, true, true, false⟩
      (fun _ => (0 : Fin 256)) 20 "!AAAAAAAAAAAAAAA".toList
      (by norm_num) (by norm_num) (by decide)⟩

/-! ### C2: class-inclusion guarantee -/

theorem class_not_degenerate :
    ∀ S ∈ [uppercaseChars, lowercaseChars, numberChars, symbolChars],
      (S.all fun c => decide (c ∈ similarChars)) = false ∧ S.length ≠ 0 ∧
        (removeSimilar S).length ≠ 0 := by
  decide

theorem requiredSets_mem_classes (o : Options) (S : List Char) (hS : S ∈ requiredSets o) :
    S ∈ [uppercaseChars, lowercaseChars, numberChars, symbolChars] := by
  rcases (mem_requiredSets o S).mp hS with ⟨-, rfl⟩ | ⟨-, rfl⟩ | ⟨-, rfl⟩ | ⟨-, rfl⟩ <;> simp

/-- After a (successful) `ensureAllCharTypes` iteration for a required
class, the password contains a character of that class. -/
theorem ensureStep_mem_class (o : Options) (stream : Nat → Fin 256) (fuel : Nat)
    (pw : List Char) (pos : Nat) (S : List Char) (hS : S ∈ requiredSets o)
    (st' : List Char × Nat) (h : ensureStep o stream fuel (pw, pos) S = some st') :
    ∃ c ∈ st'.1, c ∈ S := by
  obtain ⟨hallsim, hlen0, hrmlen⟩ := class_not_degenerate S (requiredSets_mem_classes o S hS)
  rw [ensureStep] at h
  rw [if_neg (by rw [hallsim]; simp)] at h
  by_cases h2 : (pw.any fun c => decide (c ∈ S)) = true
  · rw [if_pos h2] at h
    cases h
    obtain ⟨c, hc, hcS⟩ := List.any_eq_true.mp h2
    exact ⟨c, hc, of_decide_eq_true hcS⟩
  rw [if_neg h2, if_neg hlen0] at h
  have hv : (validCharsOf o S).length ≠ 0 := by
    unfold validCharsOf
    by_cases hex : o.excludeSimilar = true
    · rw [if_pos hex]; exact hrmlen
    · rw [if_neg hex]; exact hlen0
  rw [if_neg hv] at h
  split at h
  · exact absurd h (by simp)
  · rename_i ci pos1 hdraw1
    split at h
    · exact absurd h (by simp)
    · rename_i pi pos2 hdraw2
      cases h
      have hci := getSecureRandomIntAux_index (validCharsOf o S).length stream fuel pos ci
        pos1 hdraw1
      refine ⟨(validCharsOf o S).getD ci.toNat ' ', ?_, ?_⟩
      · rw [List.append_assoc, List.mem_append]
        right
        rw [List.mem_append]
        left
        exact List.mem_singleton.mpr rfl
      · apply validChars_subset_class o S hS
        rw [List.getD_eq_getElem _ ' ' hci.2]
        exact List.getElem_mem _

theorem ensureFold_append (o : Options) (stream : Nat → Fin 256) (fuel : Nat) :
    ∀ (l1 l2 : List (List Char)) st st2,
      ensureFold o stream fuel (l1 ++ l2) st = some st2 →
      ∃ st1, ensureFold o stream fuel l1 st = some st1 ∧
        ensureFold o stream fuel l2 st1 = some st2 := by
  intro l1
  induction l1 with
  | nil =>
    intro l2 st st2 h
    exact ⟨st, rfl, h⟩
  | cons S rest ih =>
    intro l2 st st2 h
    rw [List.cons_append, ensureFold] at h
    split at h
    · exact absurd h (by simp)
    · rename_i st1 hstep
      obtain ⟨stm, h1, h2⟩ := ih l2 st1 st2 h
      refine ⟨stm, ?_, h2⟩
      rw [ensureFold, hstep]
      exact h1

theorem getLast?_decomp {α : Type} : ∀ (l : List α) (a : α),
    l.getLast? = some a → ∃ t, l = t ++ [a] := by
  intro l
  induction l with
  | nil => intro a h; simp [List.getLast?] at h
  | cons x l ih =>
    intro a h
    cases l with
    | nil =>
      refine ⟨[], ?_⟩
      simp only [List.getLast?_singleton, Option.some.injEq] at h
      rw [h]
      rfl
    | cons y t =>
      rw [List.getLast?_cons_cons] at h
      obtain ⟨t', ht⟩ := ih a h
      exact ⟨x :: t', by rw [ht]; rfl⟩

/-- C2 (amended): a successfully generated password always contains a
character of the LAST enabled class (in the fixed order uppercase,
lowercase, numbers, symbols); the guarantee for earlier enabled classes can
be destroyed by a later class's patch overwriting their only
representative (see `generate_missing_class_cex`). -/
theorem generate_contains_last_class (o : Options) (stream : Nat → Fin 256) (fuel : Nat)
    (p : List Char) (S : List Char)
    (hlast : (requiredSets o).getLast? = some S)
    (h : generatePassword o stream fuel = some p) :
    ∃ c ∈ p, c ∈ S := by
  obtain ⟨t, ht⟩ := getLast?_decomp (requiredSets o) S hlast
  have hS : S ∈ requiredSets o := by
    rw [ht]
    exact List.mem_append.mpr (Or.inr (List.mem_singleton.mpr rfl))
  unfold generatePassword at h
  split at h
  · exact absurd h (by simp)
  · rename_i pw pos hloop
    split at h
    · exact absurd h (by simp)
    · rename_i pw2 pos2 hens
      cases h
      unfold ensureAllCharTypes at hens
      rw [ht] at hens
      obtain ⟨st1, h1, h2⟩ := ensureFold_append o stream fuel t [S] (pw, pos) (p, pos2) hens
      obtain ⟨pw1, pos1⟩ := st1
      rw [ensureFold] at h2
      split at h2
      · exact absurd h2 (by simp)
      · rename_i st3 hstep
        have hfin : st3 = (p, pos2) := by
          rw [ensureFold] at h2
          exact Option.some.inj h2
        rw [hfin] at hstep
        exact ensureStep_mem_class o stream fuel pw1 pos1 S hS (p, pos2) hstep

/-- Concrete instance of the amended C2: with every class enabled, the
final (symbols) class is represented in the output. -/
theorem generate_contains_last_class_witness :
    (requiredSets ⟨8, true, true, true, true, false⟩).getLast? = some symbolChars ∧
    generatePassword ⟨8, true, true, true, true, false⟩ (fun _ => (0 : Fin 256)) 20 =
      some ("!AAAAAAA".toList) ∧
    ∃ c ∈ "!AAAAAAA".toList, c ∈ symbolChars :=
  ⟨by decide, by decide,
    generate_contains_last_class ⟨8, true, true, true, true, false⟩
      (fun _ => (0 : Fin 256)) 20 "!AAAAAAA".toList symbolChars (by decide) (by decide)⟩

/-- Counterexample to C2 as stated: with uppercase, lowercase and numbers
enabled (all with non-empty filtered subsets), the byte stream that draws
only digits and then patches position 0 twice produces `"a0000000"`, which
contains no uppercase character: the lowercase patch overwrote the
uppercase patch at index 0. -/
theorem generate_missing_class_cex :
    (⟨8, true, true, true, false, false⟩ : Options).uppercase = true ∧
    validCharsOf ⟨8, true, true, true, false, false⟩ uppercaseChars ≠ [] ∧
    generatePassword ⟨8, true, true, true, false, false⟩
        (fun n => if n < 8 then (52 : Fin 256) else 0) 20 = some ("a0000000".toList) ∧
    ∀ c ∈ "a0000000".toList, c ∉ uppercaseChars := by
  refine ⟨rfl, by decide, by decide, by decide⟩

/-! ### C8: behaviour on non-positive length -/

theorem getSecureRandomIntAux_none_of_range_zero (lo hi : Int) (stream : Nat → Fin 256)
    (hR : randRange lo hi = 0) :
    ∀ fuel pos, getSecureRandomIntAux lo hi stream pos fuel = none := by
  intro fuel
  induction fuel with
  | zero => intro pos; rfl
  | succ fuel ih =>
    intro pos
    show (if 256 ^ bytesNeeded (randRange lo hi) -
            256 ^ bytesNeeded (randRange lo hi) % randRange lo hi ≤
            readValue stream pos (bytesNeeded (randRange lo hi))
        then getSecureRandomIntAux lo hi stream (pos + bytesNeeded (randRange lo hi)) fuel
        else some (lo + ((readValue stream pos (bytesNeeded (randRange lo hi)) %
            randRange lo hi : Nat) : Int),
          pos + bytesNeeded (randRange lo hi))) = none
    rw [hR]
    have hb : bytesNeeded 0 = 0 := rfl
    rw [hb]
    rw [if_pos (by norm_num)]
    rw [Nat.add_zero]
    exact ih pos

/-- The uppercase-only, length-0 configuration: its inclusion-guarantee
step calls `getSecureRandomInt(0, -1)` (empty password), which in the
source throws an untyped `RangeError` from `new Uint8Array(-Infinity)`; in
the model it produces no result. -/
theorem ensureStep_empty_none (stream : Nat → Fin 256) (fuel : Nat) :
    ensureStep ⟨0, true, false, false, false, false⟩ stream fuel ([], 0) uppercaseChars
      = none := by
  rw [ensureStep]
  rw [if_neg (by simp)]
  rw [if_neg (by simp)]
  rw [if_neg (by decide)]
  rw [if_neg (by decide)]
  split
  · rfl
  · rename_i ci pos1 hdraw
    rw [getSecureRandomIntAux_none_of_range_zero 0 _ stream (by decide) fuel pos1]

/-- C8: the code performs no validation of non-positive lengths, and there
is no `ConfigurationError` anywhere in it.  With `length = 0` and all
include-flags disabled, `generatePassword` returns the empty string (for
every byte stream and fuel); with `length = 0` and uppercase enabled it
aborts with no result (in the source: an incidental `RangeError` raised
inside `getSecureRandomInt`, not a `ConfigurationError`). -/
theorem generate_no_length_validation :
    (∀ stream fuel,
      generatePassword ⟨0, false, false, false, false, false⟩ stream fuel = some []) ∧
    (∀ stream fuel,
      generatePassword ⟨0, true, false, false, false, false⟩ stream fuel = none) := by
  constructor
  · intro stream fuel
    rfl
  · intro stream fuel
    show (match ensureAllCharTypes ⟨0, true, false, false, false, false⟩ stream fuel [] 0 with
      | none => none
      | some (pw2, _) => some pw2) = none
    have h1 : ensureAllCharTypes ⟨0, true, false, false, false, false⟩ stream fuel [] 0
        = none := by
      show ensureFold ⟨0, true, false, false, false, false⟩ stream fuel
        (requiredSets ⟨0, true, false, false, false, false⟩) ([], 0) = none
      rw [show requiredSets (⟨0, true, false, false, false, false⟩ : Options)
          = [uppercaseChars] from rfl]
      rw [ensureFold, ensureStep_empty_none stream fuel]
    rw [h1]

/-! ### C9: fallback alphabet when no class is enabled -/

theorem baseCharset_allFalse (o : Options) (hu : o.uppercase = false)
    (hl : o.lowercase = false) (hn : o.numbers = false) (hs : o.symbols = false) :
    baseCharset o = [] := by
  rw [baseCharset, hu, hl, hn, hs]
  rfl

theorem effectiveCharset_allFalse (o : Options) (hu : o.uppercase = false)
    (hl : o.lowercase = false) (hn : o.numbers = false) (hs : o.symbols = false) :
    effectiveCharset o = lowercaseChars ++ numberChars := by
  show (if (if o.excludeSimilar then removeSimilar (baseCharset o) else baseCharset o) = []
      then lowercaseChars ++ numberChars
      else (if o.excludeSimilar then removeSimilar (baseCharset o) else baseCharset o)) = _
  rw [baseCharset_allFalse o hu hl hn hs]
  rw [show removeSimilar ([] : List Char) = [] from rfl]
  rw [ite_self]
  rw [if_pos rfl]

theorem requiredSets_allFalse (o : Options) (hu : o.uppercase = false)
    (hl : o.lowercase = false) (hn : o.numbers = false) (hs : o.symbols = false) :
    requiredSets o = [] := by
  rw [requiredSets, hu, hl, hn, hs]
  rfl

theorem readValue_zero_stream : ∀ (b pos : Nat),
    readValue (fun _ => (0 : Fin 256)) pos b = 0 := by
  intro b
  induction b with
  | zero => intro pos; rfl
  | succ b ih =>
    intro pos
    rw [readValue_succ, ih (pos + 1)]
    simp

/-- On the all-zero byte stream every draw is accepted at once, returning
`lo`. -/
theorem getSecureRandomIntAux_zero_stream (lo hi : Int) (hR : 0 < randRange lo hi)
    (pos fuel : Nat) :
    getSecureRandomIntAux lo hi (fun _ => (0 : Fin 256)) pos (fuel + 1) =
      some (lo, pos + bytesNeeded (randRange lo hi)) := by
  show (if 256 ^ bytesNeeded (randRange lo hi) -
          256 ^ bytesNeeded (randRange lo hi) % randRange lo hi ≤
          readValue (fun _ => (0 : Fin 256)) pos (bytesNeeded (randRange lo hi))
      then _
      else some (lo + ((readValue (fun _ => (0 : Fin 256)) pos
          (bytesNeeded (randRange lo hi)) % randRange lo hi : Nat) : Int),
        pos + bytesNeeded (randRange lo hi))) = _
  rw [readValue_zero_stream]
  have hMR : randRange lo hi ≤ 256 ^ bytesNeeded (randRange lo hi) :=
    le_pow_bytesNeeded _
  have hmod : 256 ^ bytesNeeded (randRange lo hi) % randRange lo hi < randRange lo hi :=
    Nat.mod_lt _ hR
  rw [if_neg (by omega)]
  simp

theorem generateLoop_zero_stream (cs : List Char) (hcs : cs ≠ []) :
    ∀ n acc pos fuel, 1 ≤ fuel →
      ∃ pw pos', generateLoop cs (fun _ => (0 : Fin 256)) fuel n acc pos = some (pw, pos') := by
  intro n
  induction n with
  | zero => intro acc pos fuel _; exact ⟨acc, pos, rfl⟩
  | succ n ih =>
    intro acc pos fuel hfuel
    obtain ⟨f, rfl⟩ : ∃ f, fuel = f + 1 := ⟨fuel - 1, by omega⟩
    have hR : 0 < randRange 0 ((cs.length : Int) - 1) := by
      rw [randRange_zero_sub_one]
      exact List.length_pos.mpr hcs
    rw [generateLoop, getSecureRandomIntAux_zero_stream 0 _ hR pos f]
    exact ih _ _ (f + 1) hfuel

/-- C9: with a valid length and all four include-flags false,
`generatePassword` substitutes the fallback alphabet (lowercase + digits)
rather than failing: the drawn charset is the fallback alphabet, every
successful run returns `config.length` characters all from the fallback
alphabet, and a run with the all-zero byte stream does succeed (against
any fuel bound of at least 1 per draw). -/
theorem generate_fallback_alphabet (o : Options)
    (h8 : 8 ≤ o.length) (h64 : o.length ≤ 64)
    (hu : o.uppercase = false) (hl : o.lowercase = false)
    (hn : o.numbers = false) (hs : o.symbols = false) :
    effectiveCharset o = lowercaseChars ++ numberChars ∧
    (∀ stream fuel p, generatePassword o stream fuel = some p →
      (p.length : Int) = o.length ∧ ∀ c ∈ p, c ∈ lowercaseChars ++ numberChars) ∧
    (∀ fuel, 1 ≤ fuel →
      ∃ p, generatePassword o (fun _ => (0 : Fin 256)) fuel = some p) := by
  refine ⟨effectiveCharset_allFalse o hu hl hn hs, ?_, ?_⟩
  · intro stream fuel p h
    unfold generatePassword at h
    split at h
    · exact absurd h (by simp)
    · rename_i pw pos hloop
      split at h
      · exact absurd h (by simp)
      · rename_i pw2 pos2 hens
        unfold ensureAllCharTypes at hens
        rw [requiredSets_allFalse o hu hl hn hs] at hens
        have hens' : (some (pw, pos) : Option (List Char × Nat)) = some (pw2, pos2) := hens
        cases hens'
        cases h
        obtain ⟨hl1, hm1⟩ :=
          generateLoop_some (effectiveCharset o) stream fuel o.length.toNat [] 0 _ _ hloop
        constructor
        · have hlen' : p.length = o.length.toNat := by simpa using hl1
          omega
        · intro c hc
          rcases hm1 c hc with h0 | hcs
          · exact absurd h0 (List.not_mem_nil c)
          · rw [effectiveCharset_allFalse o hu hl hn hs] at hcs
            exact hcs
  · intro fuel hfuel
    obtain ⟨pw, pos', hloop⟩ :=
      generateLoop_zero_stream (effectiveCharset o)
        (by rw [effectiveCharset_allFalse o hu hl hn hs]; decide)
        o.length.toNat [] 0 fuel hfuel
    refine ⟨pw, ?_⟩
    unfold generatePassword
    rw [hloop]
    unfold ensureAllCharTypes
    rw [requiredSets_allFalse o hu hl hn hs]
    rfl

/-- Concrete instance of C9 at length 16. -/
theorem generate_fallback_alphabet_witness :
    (8 : Int) ≤ (⟨16, false, false, false, false, false⟩ : Options).length ∧
    (⟨16, false, false, false, false, false⟩ : Options).length ≤ 64 ∧
    (effectiveCharset ⟨16, false, false, false, false, false⟩ =
        lowercaseChars ++ numberChars ∧
      (∀ stream fuel p,
        generatePassword ⟨16, false, false, false, false, false⟩ stream fuel = some p →
        (p.length : Int) = (⟨16, false, false, false, false, false⟩ : Options).length ∧
          ∀ c ∈ p, c ∈ lowercaseChars ++ numberChars) ∧
      (∀ fuel, 1 ≤ fuel →
        ∃ p, generatePassword ⟨16, false, false, false, false, false⟩
          (fun _ => (0 : Fin 256)) fuel = some p)) :=
  ⟨by norm_num, by norm_num,
    generate_fallback_alphabet ⟨16, false, false, false, false, false⟩
      (by norm_num) (by norm_num) rfl rfl rfl rfl⟩

/-! ### Strength analyzer: character classes and entropy
(`PasswordStrengthAnalyzer`) -/

/-- The regex class `[A-Z]` (all passwords here are ASCII). -/
def isUpperChar (c : Char) : Bool := decide ('A' ≤ c ∧ c ≤ 'Z')

/-- The regex class `[a-z]`. -/
def isLowerChar (c : Char) : Bool := decide ('a' ≤ c ∧ c ≤ 'z')

/-- The regex class `[0-9]`. -/
def isDigitChar (c : Char) : Bool := decide ('0' ≤ c ∧ c ≤ '9')

/-- The regex class `[^A-Za-z0-9]`. -/
def isSymbolChar (c : Char) : Bool := !(isUpperChar c || isLowerChar c || isDigitChar c)

/-- The regex class `[a-zA-Z]` (`[a-z]` under the `i` flag). -/
def isLetterChar (c : Char) : Bool := isUpperChar c || isLowerChar c

/-- The regex class `[a-z0-9]` under the `i` flag. -/
def isAlnumChar (c : Char) : Bool := isLetterChar c || isDigitChar c

/-- The observed charset size of `calculateEntropy` (lines 84-88): 26 per
letter case present, 10 for digits, 33 for anything else. -/
def charsetSize (p : List Char) : Nat :=
  (if p.any isUpperChar then 26 else 0) + (if p.any isLowerChar then 26 else 0) +
  (if p.any isDigitChar then 10 else 0) + (if p.any isSymbolChar then 33 else 0)

/-- `Math.log2(Math.pow(charsetSize, password.length))` (line 91) — also
the entropy formula of `PasswordGenerator.calculateStrength` (line 172),
which recomputes the identical charset size and expression. -/
noncomputable def baseEntropy (p : List Char) : Real :=
  Real.logb 2 ((charsetSize p : Real) ^ p.length)

/-- Maximal runs of equal consecutive characters, with multiplicities: the
matches of `/(.)\1+/g` are exactly the runs of length at least 2. -/
def runsAux (c : Char) (n : Nat) : List Char → List (Char × Nat)
  | [] => [(c, n)]
  | d :: rest => if d = c then runsAux c (n + 1) rest else (c, n) :: runsAux d 1 rest

def runs : List Char → List (Char × Nat)
  | [] => []
  | c :: rest => runsAux c 1 rest

/-- `repeatedChars.reduce((total, match) => total + match.length - 1, 0)`
(line 99): over the matches of `/(.)\1+/g`, i.e. the maximal runs of length
at least 2. -/
def repeatSum (p : List Char) : Nat :=
  ((runs p).filter (fun r => decide (2 ≤ r.2))).foldl (fun t r => t + (r.2 - 1)) 0

/-- `String.prototype.startsWith`-like prefix test on character lists. -/
def listStartsWith : List Char → List Char → Bool
  | _, [] => true
  | [], _ :: _ => false
  | c :: cs, d :: ds => c = d && listStartsWith cs ds

/-- `String.prototype.includes`: substring containment. -/
def listContains : List Char → List Char → Bool
  | [], sub => listStartsWith [] sub
  | c :: t, sub => listStartsWith (c :: t) sub || listContains t sub

/-- The analyzer's local `alphabet` constant (line 124). -/
def seqAlphabet : List Char := "abcdefghijklmnopqrstuvwxyz".toList

/-- The analyzer's local `numbers` constant (line 133). -/
def seqNumbers : List Char := "0123456789".toList

/-- `s.substring(i, i + 3)` for `i < s.length - 2`: all 3-character
windows of `s`. -/
def seqWindows (s : List Char) : List (List Char) :=
  (List.range (s.length - 2)).map (fun i => (s.drop i).take 3)

/-- `checkForSequentialChars` (lines 119-142): for each ascending
3-character window of the alphabet (against the lowercased password) and of
the digit string (against the password itself) that occurs as a substring,
add the window length (3). -/
def checkForSequentialChars (p : List Char) : Nat :=
  ((seqWindows seqAlphabet).foldl
      (fun cnt seq => if listContains (p.map Char.toLower) seq then cnt + seq.length else cnt)
      0) +
  ((seqWindows seqNumbers).foldl
      (fun cnt seq => if listContains p seq then cnt + seq.length else cnt) 0)

/-- The number of distinct matched 3-character ascending windows (the
spec's count of matched 3-grams); `checkForSequentialChars` adds 3 per
matched window, see `checkForSequentialChars_eq`. -/
def matchedTrigrams (p : List Char) : Nat :=
  ((seqWindows seqAlphabet).filter
      (fun seq => listContains (p.map Char.toLower) seq)).length +
  ((seqWindows seqNumbers).filter (fun seq => listContains p seq)).length

/-- `/^[a-z]{3,8}[0-9]{1,4}$/i` (the letter and digit classes are
disjoint, so regex backtracking reduces to the greedy split). -/
def wordPlusDigits (p : List Char) : Bool :=
  let a := p.takeWhile isLetterChar
  let rest := p.dropWhile isLetterChar
  decide (3 ≤ a.length) && decide (a.length ≤ 8) && !(rest.isEmpty) &&
    decide (rest.length ≤ 4) && rest.all isDigitChar

/-- The word alternatives of `/^(password|pass|admin|user|login)[0-9]*$/i`. -/
def commonWords : List (List Char) :=
  ["password".toList, "pass".toList, "admin".toList, "user".toList, "login".toList]

/-- The keyboard-walk alternatives of `/^(qwerty|asdf|zxcv|1234|0000)/`
(case-sensitive, unanchored at the end). -/
def keyboardWalks : List (List Char) :=
  ["qwerty".toList, "asdf".toList, "zxcv".toList, "1234".toList, "0000".toList]

/-- `/(.)\1{2,}/`: some maximal run has length at least 3. -/
def hasTripleRun (p : List Char) : Bool :=
  (runs p).any (fun r => decide (3 ≤ r.2))

/-- `checkForCommonPatterns` (lines 149-151) over `COMMON_PATTERNS`
(lines 19-27), in order: letters-only, digits-only, alphanumeric-only,
word+digits shape, common password word plus digits, keyboard-walk prefix,
3+ repeated run. -/
def checkForCommonPatterns (p : List Char) : Bool :=
  (!(p.isEmpty) && p.all isLetterChar) ||
  (!(p.isEmpty) && p.all isDigitChar) ||
  (!(p.isEmpty) && p.all isAlnumChar) ||
  wordPlusDigits p ||
  commonWords.any (fun w =>
    listStartsWith (p.map Char.toLower) w && ((p.map Char.toLower).drop w.length).all isDigitChar) ||
  keyboardWalks.any (fun w => listStartsWith p w) ||
  hasTripleRun p

/-- The accumulated `entropyPenalty` of `calculateEntropy` (lines 94-109):
0.5 per extra character of a repeated run, 0.8 per sequential-character
count, `0.2 * length` when a common pattern matches. -/
noncomputable def entropyPenalty (p : List Char) : Real :=
  0.5 * (repeatSum p : Real) + 0.8 * (checkForSequentialChars p : Real) +
    (if checkForCommonPatterns p then 0.2 * (p.length : Real) else 0)

/-- `calculateEntropy` (line 111): `max(0, baseEntropy - entropyPenalty)`. -/
noncomputable def calculateEntropy (p : List Char) : Real :=
  max 0 (baseEntropy p - entropyPenalty p)

/-! ### Strength analyzer: tiers, labels, standards -/

/-- One entry of `STRENGTH_LEVELS` (lines 10-16); `max = none` models
`Infinity`. -/
structure StrengthLevel where
  min : Real
  max : Option Real
  label : List Char
  color : List Char

/-- `entropy < range.max`, with `max = Infinity` always true. -/
def ltMax (e : Real) : Option Real → Prop
  | some m => e < m
  | none => True

noncomputable instance ltMaxDec (e : Real) : ∀ o : Option Real, Decidable (ltMax e o)
  | some m => inferInstanceAs (Decidable (e < m))
  | none => inferInstanceAs (Decidable True)

def VERY_WEAK_LEVEL : StrengthLevel := ⟨0, some 30, "Very Weak".toList, "#FF5252".toList⟩

def WEAK_LEVEL : StrengthLevel := ⟨30, some 50, "Weak".toList, "#FF5252".toList⟩

def MEDIUM_LEVEL : StrengthLevel := ⟨50, some 70, "Medium".toList, "#FFAB00".toList⟩

def STRONG_LEVEL : StrengthLevel := ⟨70, some 90, "Strong".toList, "#00C853".toList⟩

def VERY_STRONG_LEVEL : StrengthLevel := ⟨90, none, "Very Strong".toList, "#64FFDA".toList⟩

/-- `this.STRENGTH_LEVELS`, in `Object.entries` order. -/
def STRENGTH_LEVELS : List StrengthLevel :=
  [VERY_WEAK_LEVEL, WEAK_LEVEL, MEDIUM_LEVEL, STRONG_LEVEL, VERY_STRONG_LEVEL]

/-- The loop of `getStrengthLevel` (lines 158-165): first level with
`min ≤ entropy < max`, defaulting to `VERY_STRONG`. -/
noncomputable def getStrengthLevelAux (e : Real) : List StrengthLevel → StrengthLevel
  | [] => VERY_STRONG_LEVEL
  | lv :: rest => if lv.min ≤ e ∧ ltMax e lv.max then lv else getStrengthLevelAux e rest

noncomputable def getStrengthLevel (e : Real) : StrengthLevel :=
  getStrengthLevelAux e STRENGTH_LEVELS

/-- `String.prototype.replace(' ', '-')`: first occurrence only. -/
def replaceFirstChar (t r : Char) : List Char → List Char
  | [] => []
  | c :: cs => if c = t then r :: cs else c :: replaceFirstChar t r cs

/-- `label.toLowerCase().replace(' ', '-')` (line 64 of `analyzePassword`). -/
def jsLowerDash (l : List Char) : List Char :=
  replaceFirstChar ' ' '-' (l.map Char.toLower)

/-- The `strengthLevel` string reported by `analyzePassword`: the tier of
the penalized entropy, lowercased and dash-joined. -/
noncomputable def analyzeStrengthLabel (p : List Char) : List Char :=
  jsLowerDash (getStrengthLevel (calculateEntropy p)).label

/-- An entry of `SECURITY_STANDARDS` (lines 30-34). -/
structure SecurityStandard where
  minLength : Nat
  requiresComplexity : Bool

def SECURITY_STANDARDS_NIST : SecurityStandard := ⟨8, false⟩

def SECURITY_STANDARDS_OWASP : SecurityStandard := ⟨10, true⟩

def SECURITY_STANDARDS_MICROSOFT : SecurityStandard := ⟨8, true⟩

/-- The result object of `checkSecurityStandards`. -/
structure StandardsCompliance where
  NIST : Bool
  OWASP : Bool
  MICROSOFT : Bool

/-- The JS number coercion of a boolean (`true + true ≥ 3`-style sums). -/
def b2n (b : Bool) : Nat := if b then 1 else 0

/-- `checkSecurityStandards(password, options)` (lines 183-197). -/
def checkSecurityStandards (p : List Char) : StandardsCompliance :=
  let hasUppercase := p.any isUpperChar
  let hasLowercase := p.any isLowerChar
  let hasNumbers := p.any isDigitChar
  let hasSymbols := p.any isSymbolChar
  let hasComplexity :=
    decide (3 ≤ b2n hasUppercase + b2n hasLowercase + b2n hasNumbers + b2n hasSymbols)
  { NIST := decide (SECURITY_STANDARDS_NIST.minLength ≤ p.length),
    OWASP := decide (SECURITY_STANDARDS_OWASP.minLength ≤ p.length) &&
      (hasComplexity || !SECURITY_STANDARDS_OWASP.requiresComplexity),
    MICROSOFT := decide (SECURITY_STANDARDS_MICROSOFT.minLength ≤ p.length) &&
      (hasComplexity || !SECURITY_STANDARDS_MICROSOFT.requiresComplexity) }

/-- The number of the four character classes present in the password (the
spec's complexity measure). -/
def classCount (p : List Char) : Nat :=
  b2n (p.any isUpperChar) + b2n (p.any isLowerChar) +
    b2n (p.any isDigitChar) + b2n (p.any isSymbolChar)

/-- `PasswordGenerator.calculateStrength` strength tier (lines 163-185):
thresholds 40/60/80 on the unpenalized entropy, four labels. -/
noncomputable def calculateStrengthLevel (p : List Char) : List Char :=
  if baseEntropy p < 40 then ("weak".toList)
  else if baseEntropy p < 60 then ("medium".toList)
  else if baseEntropy p < 80 then ("strong".toList)
  else ("very-strong".toList)

/-! ### C7: standards compliance -/

/-- C7: `checkSecurityStandards` reports NIST iff length ≥ 8 (no
complexity); OWASP iff length ≥ 10 and at least 3 of the 4 character
classes present; the vendor check iff length ≥ 8 and the same complexity
condition. -/
theorem checkSecurityStandards_spec (p : List Char) :
    ((checkSecurityStandards p).NIST = true ↔ 8 ≤ p.length) ∧
    ((checkSecurityStandards p).OWASP = true ↔ 10 ≤ p.length ∧ 3 ≤ classCount p) ∧
    ((checkSecurityStandards p).MICROSOFT = true ↔ 8 ≤ p.length ∧ 3 ≤ classCount p) := by
  unfold checkSecurityStandards classCount SECURITY_STANDARDS_NIST
    SECURITY_STANDARDS_OWASP SECURITY_STANDARDS_MICROSOFT
  simp only [Bool.and_eq_true, Bool.or_eq_true, decide_eq_true_eq, Bool.not_true,
    Bool.false_eq_true, or_false]
  exact ⟨trivial, trivial, trivial⟩

/-! ### C6: strength tiers -/

theorem getLevel_veryWeak (e : Real) (h0 : 0 ≤ e) (h : e < 30) :
    getStrengthLevel e = VERY_WEAK_LEVEL := by
  show getStrengthLevelAux e STRENGTH_LEVELS = VERY_WEAK_LEVEL
  rw [STRENGTH_LEVELS, getStrengthLevelAux,
    if_pos (show VERY_WEAK_LEVEL.min ≤ e ∧ ltMax e VERY_WEAK_LEVEL.max from ⟨h0, h⟩)]

theorem getLevel_weak (e : Real) (h1 : 30 ≤ e) (h2 : e < 50) :
    getStrengthLevel e = WEAK_LEVEL := by
  show getStrengthLevelAux e STRENGTH_LEVELS = WEAK_LEVEL
  rw [STRENGTH_LEVELS, getStrengthLevelAux,
    if_neg (show ¬(VERY_WEAK_LEVEL.min ≤ e ∧ ltMax e VERY_WEAK_LEVEL.max) from
      fun hc => absurd (show e < 30 from hc.2) (by linarith)),
    getStrengthLevelAux,
    if_pos (show WEAK_LEVEL.min ≤ e ∧ ltMax e WEAK_LEVEL.max from ⟨h1, h2⟩)]

theorem getLevel_medium (e : Real) (h1 : 50 ≤ e) (h2 : e < 70) :
    getStrengthLevel e = MEDIUM_LEVEL := by
  show getStrengthLevelAux e STRENGTH_LEVELS = MEDIUM_LEVEL
  rw [STRENGTH_LEVELS, getStrengthLevelAux,
    if_neg (show ¬(VERY_WEAK_LEVEL.min ≤ e ∧ ltMax e VERY_WEAK_LEVEL.max) from
      fun hc => absurd (show e < 30 from hc.2) (by linarith)),
    getStrengthLevelAux,
    if_neg (show ¬(WEAK_LEVEL.min ≤ e ∧ ltMax e WEAK_LEVEL.max) from
      fun hc => absurd (show e < 50 from hc.2) (by linarith)),
    getStrengthLevelAux,
    if_pos (show MEDIUM_LEVEL.min ≤ e ∧ ltMax e MEDIUM_LEVEL.max from ⟨h1, h2⟩)]

theorem getLevel_strong (e : Real) (h1 : 70 ≤ e) (h2 : e < 90) :
    getStrengthLevel e = STRONG_LEVEL := by
  show getStrengthLevelAux e STRENGTH_LEVELS = STRONG_LEVEL
  rw [STRENGTH_LEVELS, getStrengthLevelAux,
    if_neg (show ¬(VERY_WEAK_LEVEL.min ≤ e ∧ ltMax e VERY_WEAK_LEVEL.max) from
      fun hc => absurd (show e < 30 from hc.2) (by linarith)),
    getStrengthLevelAux,
    if_neg (show ¬(WEAK_LEVEL.min ≤ e ∧ ltMax e WEAK_LEVEL.max) from
      fun hc => absurd (show e < 50 from hc.2) (by linarith)),
    getStrengthLevelAux,
    if_neg (show ¬(MEDIUM_LEVEL.min ≤ e ∧ ltMax e MEDIUM_LEVEL.max) from
      fun hc => absurd (show e < 70 from hc.2) (by linarith)),
    getStrengthLevelAux,
    if_pos (show STRONG_LEVEL.min ≤ e ∧ ltMax e STRONG_LEVEL.max from ⟨h1, h2⟩)]

theorem getLevel_veryStrong (e : Real) (h1 : 90 ≤ e) :
    getStrengthLevel e = VERY_STRONG_LEVEL := by
  show getStrengthLevelAux e STRENGTH_LEVELS = VERY_STRONG_LEVEL
  rw [STRENGTH_LEVELS, getStrengthLevelAux,
    if_neg (show ¬(VERY_WEAK_LEVEL.min ≤ e ∧ ltMax e VERY_WEAK_LEVEL.max) from
      fun hc => absurd (show e < 30 from hc.2) (by linarith)),
    getStrengthLevelAux,
    if_neg (show ¬(WEAK_LEVEL.min ≤ e ∧ ltMax e WEAK_LEVEL.max) from
      fun hc => absurd (show e < 50 from hc.2) (by linarith)),
    getStrengthLevelAux,
    if_neg (show ¬(MEDIUM_LEVEL.min ≤ e ∧ ltMax e MEDIUM_LEVEL.max) from
      fun hc => absurd (show e < 70 from hc.2) (by linarith)),
    getStrengthLevelAux,
    if_neg (show ¬(STRONG_LEVEL.min ≤ e ∧ ltMax e STRONG_LEVEL.max) from
      fun hc => absurd (show e < 90 from hc.2) (by linarith)),
    getStrengthLevelAux,
    if_pos (show VERY_STRONG_LEVEL.min ≤ e ∧ ltMax e VERY_STRONG_LEVEL.max from
      ⟨h1, trivial⟩)]

/-- C6: the strength tier is determined by the half-open intervals
`[0,30) [30,50) [50,70) [70,90) [90,∞)` — Very Weak, Weak, Medium, Strong,
Very Strong. -/
theorem strength_tier_intervals (e : Real) (h0 : 0 ≤ e) :
    (e < 30 → (getStrengthLevel e).label = "Very Weak".toList) ∧
    (30 ≤ e → e < 50 → (getStrengthLevel e).label = "Weak".toList) ∧
    (50 ≤ e → e < 70 → (getStrengthLevel e).label = "Medium".toList) ∧
    (70 ≤ e → e < 90 → (getStrengthLevel e).label = "Strong".toList) ∧
    (90 ≤ e → (getStrengthLevel e).label = "Very Strong".toList) := by
  refine ⟨fun h => ?_, fun ha hb => ?_, fun ha hb => ?_, fun ha hb => ?_, fun h => ?_⟩
  · rw [getLevel_veryWeak e h0 h]; rfl
  · rw [getLevel_weak e ha hb]; rfl
  · rw [getLevel_medium e ha hb]; rfl
  · rw [getLevel_strong e ha hb]; rfl
  · rw [getLevel_veryStrong e h]; rfl

/-- Concrete instance of C6 at entropy 20. -/
theorem strength_tier_intervals_witness :
    (0 : Real) ≤ 20 ∧ (getStrengthLevel 20).label = "Very Weak".toList :=
  ⟨by norm_num, (strength_tier_intervals 20 (by norm_num)).1 (by norm_num)⟩

/-! ### C4: sequential-substring penalty -/

theorem foldl_if_add_len (f : List Char → Bool) :
    ∀ (ws : List (List Char)), (∀ w ∈ ws, w.length = 3) →
      ∀ acc, ws.foldl (fun c w => if f w then c + w.length else c) acc
        = acc + 3 * (ws.filter f).length := by
  intro ws
  induction ws with
  | nil => intro _ acc; simp
  | cons w ws ih =>
    intro hlen acc
    have hw : w.length = 3 := hlen w (List.mem_cons_self w ws)
    have hws : ∀ v ∈ ws, v.length = 3 := fun v hv => hlen v (List.mem_cons_of_mem w hv)
    rw [List.foldl_cons]
    by_cases hf : f w
    · rw [if_pos hf, ih hws, List.filter_cons_of_pos hf, List.length_cons, hw]
      ring
    · rw [if_neg hf, ih hws, List.filter_cons_of_neg hf]

theorem seqWindows_lengths :
    (∀ w ∈ seqWindows seqAlphabet, w.length = 3) ∧
      (∀ w ∈ seqWindows seqNumbers, w.length = 3) := by
  decide

/-- `checkForSequentialChars` adds the window length 3 per matched
3-character ascending window. -/
theorem checkForSequentialChars_eq (p : List Char) :
    checkForSequentialChars p = 3 * matchedTrigrams p := by
  unfold checkForSequentialChars matchedTrigrams
  rw [foldl_if_add_len _ _ seqWindows_lengths.1 0,
    foldl_if_add_len _ _ seqWindows_lengths.2 0]
  ring

/-- Counterexample to C4 as stated: for the password `"abc"` exactly one
ascending 3-gram matches, yet the penalty subtracted is
`0.8 * 3 = 2.4`, not `0.8`. -/
theorem sequential_penalty_cex :
    matchedTrigrams ['a', 'b', 'c'] = 1 ∧
      0.8 * ((checkForSequentialChars ['a', 'b', 'c'] : Nat) : Real) ≠
        0.8 * ((matchedTrigrams ['a', 'b', 'c'] : Nat) : Real) := by
  refine ⟨by decide, ?_⟩
  rw [show checkForSequentialChars ['a', 'b', 'c'] = 3 from by decide,
    show matchedTrigrams ['a', 'b', 'c'] = 1 from by decide]
  norm_num

/-- C4 (amended): the sequential penalty subtracted inside
`calculateEntropy` is `2.4 = 0.8 * 3` per matched ascending 3-gram (each
distinct alphabet or digit window counted once), not `0.8`. -/
theorem sequential_penalty_eq (p : List Char) :
    0.8 * ((checkForSequentialChars p : Nat) : Real) =
      2.4 * ((matchedTrigrams p : Nat) : Real) := by
  rw [checkForSequentialChars_eq]
  push_cast
  ring

/-! ### C5: repeated-run penalty -/

theorem runsAux_flatten : ∀ (l : List Char) (c : Char) (n : Nat),
    ((runsAux c n l).map (fun r => List.replicate r.2 r.1)).flatten =
      List.replicate n c ++ l := by
  intro l
  induction l with
  | nil => intro c n; simp [runsAux]
  | cons d rest ih =>
    intro c n
    rw [runsAux]
    by_cases hd : d = c
    · rw [if_pos hd, ih c (n + 1), List.replicate_succ']
      subst hd
      simp
    · rw [if_neg hd]
      simp only [List.map_cons, List.flatten_cons, ih d 1]
      simp

theorem runsAux_head : ∀ (l : List Char) (c : Char) (n : Nat),
    ∃ m t, runsAux c n l = (c, m) :: t := by
  intro l
  induction l with
  | nil => intro c n; exact ⟨n, [], rfl⟩
  | cons d rest ih =>
    intro c n
    rw [runsAux]
    by_cases hd : d = c
    · rw [if_pos hd]; exact ih c (n + 1)
    · rw [if_neg hd]
      exact ⟨n, runsAux d 1 rest, rfl⟩

theorem runsAux_chain : ∀ (l : List Char) (c : Char) (n : Nat),
    List.Chain' (fun a b : Char × Nat => a.1 ≠ b.1) (runsAux c n l) := by
  intro l
  induction l with
  | nil => intro c n; exact List.chain'_singleton _
  | cons d rest ih =>
    intro c n
    rw [runsAux]
    by_cases hd : d = c
    · rw [if_pos hd]; exact ih c (n + 1)
    · rw [if_neg hd]
      obtain ⟨m, t, ht⟩ := runsAux_head rest d 1
      rw [ht]
      exact List.Chain'.cons (by simpa using Ne.symm hd) (ht ▸ ih d 1)

theorem runsAux_pos : ∀ (l : List Char) (c : Char) (n : Nat), 1 ≤ n →
    ∀ r ∈ runsAux c n l, 1 ≤ r.2 := by
  intro l
  induction l with
  | nil =>
    intro c n hn r hr
    rw [runsAux, List.mem_singleton] at hr
    rw [hr]
    exact hn
  | cons d rest ih =>
    intro c n hn r hr
    rw [runsAux] at hr
    by_cases hd : d = c
    · rw [if_pos hd] at hr
      exact ih c (n + 1) (by omega) r hr
    · rw [if_neg hd] at hr
      rcases List.mem_cons.mp hr with rfl | hr'
      · exact hn
      · exact ih d 1 (le_refl 1) r hr'

theorem runs_flatten (p : List Char) :
    ((runs p).map (fun r => List.replicate r.2 r.1)).flatten = p := by
  cases p with
  | nil => rfl
  | cons c rest => rw [runs, runsAux_flatten rest c 1]; rfl

theorem runs_chain (p : List Char) :
    List.Chain' (fun a b : Char × Nat => a.1 ≠ b.1) (runs p) := by
  cases p with
  | nil => exact List.chain'_nil
  | cons c rest => rw [runs]; exact runsAux_chain rest c 1

theorem runs_pos (p : List Char) : ∀ r ∈ runs p, 1 ≤ r.2 := by
  cases p with
  | nil => intro r hr; exact absurd hr (List.not_mem_nil r)
  | cons c rest => rw [runs]; exact runsAux_pos rest c 1 (le_refl 1)

theorem foldl_add_pred : ∀ (l : List (Char × Nat)) (acc : Nat),
    l.foldl (fun t r => t + (r.2 - 1)) acc = acc + (l.map (fun r => r.2 - 1)).sum := by
  intro l
  induction l with
  | nil => intro acc; simp
  | cons r l ih =>
    intro acc
    rw [List.foldl_cons, ih, List.map_cons, List.sum_cons]
    omega

/-- `repeatSum` is the sum of `k - 1` over the maximal runs of length
`k ≥ 2`. -/
theorem repeatSum_eq (p : List Char) :
    repeatSum p =
      (((runs p).filter (fun r => decide (2 ≤ r.2))).map (fun r => r.2 - 1)).sum := by
  unfold repeatSum
  rw [foldl_add_pred]
  exact Nat.zero_add _

/-! Real-logarithm bounds used for the concrete entropy computations. -/

theorem log_two_pos : (0 : Real) < Real.log 2 := Real.log_pos one_lt_two

theorem log26_lower : (351 : Real) * Real.log 2 ≤ 80 * Real.log 26 := by
  have h1 : ((2 : Real) ^ (351 : Nat)) ≤ (26 : Real) ^ (80 : Nat) := by norm_num
  have h2 := (Real.log_le_log_iff (by positivity) (by positivity)).mpr h1
  rw [Real.log_pow, Real.log_pow] at h2
  push_cast at h2
  linarith

theorem log26_upper : Real.log 26 < 5 * Real.log 2 := by
  have h1 : Real.log 26 < Real.log 32 := Real.log_lt_log (by norm_num) (by norm_num)
  have h32 : (32 : Real) = 2 ^ (5 : Nat) := by norm_num
  rw [h32, Real.log_pow] at h1
  push_cast at h1
  linarith

theorem logb26_bounds : (351 / 80 : Real) ≤ Real.logb 2 26 ∧ Real.logb 2 26 < 5 := by
  have ht := log_two_pos
  constructor
  · rw [← Real.log_div_log, le_div_iff₀ ht]
    nlinarith [log26_lower]
  · rw [← Real.log_div_log, div_lt_iff₀ ht]
    linarith [log26_upper]

/-- The test password of the specification example. -/
def repeatedPassword : List Char := "aaaaaaaa".toList

theorem baseEntropy_aaaa : baseEntropy repeatedPassword = 8 * Real.logb 2 26 := by
  unfold baseEntropy
  rw [show charsetSize repeatedPassword = 26 from by decide,
    show (repeatedPassword).length = 8 from by decide]
  push_cast
  rw [Real.logb_pow]
  norm_num

theorem entropyPenalty_aaaa : entropyPenalty repeatedPassword = 5.1 := by
  unfold entropyPenalty
  rw [show repeatSum repeatedPassword = 7 from by decide,
    show checkForSequentialChars repeatedPassword = 0 from by decide,
    if_pos (show checkForCommonPatterns repeatedPassword = true from by decide),
    show (repeatedPassword).length = 8 from by decide]
  norm_num

theorem entropy_aaaa : calculateEntropy repeatedPassword = 8 * Real.logb 2 26 - 5.1 := by
  unfold calculateEntropy
  rw [baseEntropy_aaaa, entropyPenalty_aaaa]
  have hlb := logb26_bounds.1
  rw [max_eq_right (by nlinarith)]

/-- C5: `calculateEntropy` subtracts `0.5 * (k - 1)` for every maximal run
of `k ≥ 2` equal consecutive characters (`runs` is shown to be exactly the
maximal-run decomposition) and floors the result at 0; concretely,
`"aaaaaaaa"` is penalized strictly below its unpenalized base entropy, its
single run of length 8 contributing a `0.5 * 7 = 3.5`-bit subtraction, and
it classifies into the low `"weak"` tier. -/
theorem repeated_run_penalty :
    (∀ p : List Char,
      ((runs p).map (fun r => List.replicate r.2 r.1)).flatten = p ∧
      List.Chain' (fun a b : Char × Nat => a.1 ≠ b.1) (runs p) ∧
      (∀ r ∈ runs p, 1 ≤ r.2) ∧
      repeatSum p =
        (((runs p).filter (fun r => decide (2 ≤ r.2))).map (fun r => r.2 - 1)).sum ∧
      calculateEntropy p = max 0 (baseEntropy p - entropyPenalty p) ∧
      0 ≤ calculateEntropy p) ∧
    (runs repeatedPassword = [('a', 8)] ∧
      repeatSum repeatedPassword = 7 ∧
      0.5 * ((repeatSum repeatedPassword : Nat) : Real) = 3.5 ∧
      calculateEntropy repeatedPassword < baseEntropy repeatedPassword ∧
      analyzeStrengthLabel repeatedPassword = "weak".toList) := by
  constructor
  · intro p
    refine ⟨runs_flatten p, runs_chain p, runs_pos p, repeatSum_eq p, rfl,
      le_max_left 0 _⟩
  · have h30 : (30 : Real) ≤ 8 * Real.logb 2 26 - 5.1 := by
      nlinarith [logb26_bounds.1]
    have h50 : 8 * Real.logb 2 26 - 5.1 < 50 := by
      nlinarith [logb26_bounds.2]
    refine ⟨by decide, by decide, ?_, ?_, ?_⟩
    · rw [show repeatSum repeatedPassword = 7 from by decide]
      norm_num
    · rw [entropy_aaaa, baseEntropy_aaaa]
      norm_num
    · unfold analyzeStrengthLabel
      rw [entropy_aaaa, getLevel_weak _ h30 h50]
      decide

/-! ### C10: the two embedded strength classifiers -/

theorem baseEntropy_A : baseEntropy ['A'] = Real.logb 2 26 := by
  unfold baseEntropy
  rw [show charsetSize ['A'] = 26 from by decide,
    show (['A'] : List Char).length = 1 from rfl]
  push_cast
  rw [pow_one]

theorem genLabel_A : calculateStrengthLevel ['A'] = "weak".toList := by
  unfold calculateStrengthLevel
  rw [if_pos (show baseEntropy ['A'] < 40 by
    rw [baseEntropy_A]; linarith [logb26_bounds.2])]

theorem entropy_A : calculateEntropy ['A'] = Real.logb 2 26 - 0.2 := by
  unfold calculateEntropy
  have hpen : entropyPenalty ['A'] = 0.2 := by
    unfold entropyPenalty
    rw [show repeatSum ['A'] = 0 from by decide,
      show checkForSequentialChars ['A'] = 0 from by decide,
      if_pos (show checkForCommonPatterns ['A'] = true from by decide),
      show (['A'] : List Char).length = 1 from rfl]
    norm_num
  rw [baseEntropy_A, hpen]
  rw [max_eq_right (by nlinarith [logb26_bounds.1])]

theorem anaLabel_A : analyzeStrengthLabel ['A'] = "very-weak".toList := by
  unfold analyzeStrengthLabel
  rw [entropy_A,
    getLevel_veryWeak _ (by nlinarith [logb26_bounds.1]) (by nlinarith [logb26_bounds.2])]
  decide

/-- Counterexample to C10: on the password `"A"` the generator's
classifier (thresholds 40/60/80 on unpenalized entropy) answers `"weak"`
while the analyzer's classifier (thresholds 30/50/70/90 on penalized
entropy) answers `"very-weak"` — the two classifiers are not extensionally
equal. -/
theorem classifier_mismatch_cex :
    calculateStrengthLevel ['A'] ≠ analyzeStrengthLabel ['A'] := by
  rw [genLabel_A, anaLabel_A]
  decide

/-- C10 (amended): the two embedded classifiers differ; on `"A"` the
generator reports `"weak"` and the analyzer reports `"very-weak"`. -/
theorem classifier_values_at_A :
    calculateStrengthLevel ['A'] = "weak".toList ∧
      analyzeStrengthLabel ['A'] = "very-weak".toList :=
  ⟨genLabel_A, anaLabel_A⟩
